import Mathlib

/-!
Verification of the Search_Engine repository's core engines against its
specification.

Shallow embedding conventions:
* 128-bit UUIDs are modelled as `Nat` values below `2^128`.  The store
  compares UUIDs by their canonical string form (fixed-width lowercase hex
  with dashes at fixed positions), which orders exactly like the numeric
  value, so the model compares the numbers directly.
* `uuid.New()` produces random version-4 UUIDs; the only property the code
  relies on is freshness and that the nil (all-zero) UUID is never produced
  (v4 UUIDs carry fixed version bits).  The model draws fresh ids from a
  counter starting at 1.
* Timestamps (`time.Time`) are modelled as `Nat`; `a.After(b)` is `b < a`
  and `a.Before(b)` is `a < b`.  Functions that call `time.Now()` take the
  current time as an explicit `now` argument.
* Fallible operations return `Except`; `xerrors` sentinel values become
  explicit error constructors.
-/

namespace LinkGraph

/-- Link mirrors `graph.Link`: `{ID, URL, RetrievedAt}`. -/
structure Link where
  id : Nat
  url : String
  retrievedAt : Nat
  deriving Repr, DecidableEq

/-- Edge mirrors `graph.Edge`: `{ID, Src, Dst, UpdatedAt}`. -/
structure Edge where
  id : Nat
  src : Nat
  dst : Nat
  updatedAt : Nat
  deriving Repr, DecidableEq

/-- StoreErr models the error values raised by the in-memory graph store. -/
inductive StoreErr where
  | unknownEdgeLinks
  | notFound
  deriving Repr, DecidableEq

/-- InMemoryGraph models `memory.InMemoryGraph`.  The Go struct keeps
`links` (by id) and `linkURLIndex` (by URL) pointing at the same objects, so
a single list keyed by both fields is a faithful view; `edges` plus
`linkEdgeMap` append every new edge, so a single insertion-ordered edge
list is faithful (the per-source scan in `UpsertEdge` sees exactly the
edges with that source, in insertion order).  `nextId` models the fresh
`uuid.New()` supply. -/
structure InMemoryGraph where
  links : List Link
  edges : List Edge
  nextId : Nat
  deriving Repr, DecidableEq

/-- NewInMemoryGraph models `memory.NewInMemoryGraph`. -/
def NewInMemoryGraph : InMemoryGraph :=
  { links := [], edges := [], nextId := 1 }

/-- UpsertLink models `InMemoryGraph.UpsertLink`.  Returns the updated
store together with the caller's link after mutation (the Go code writes
`link.ID` through the pointer; the caller's `RetrievedAt` is left as
submitted, only the stored copy is max-adjusted). -/
def UpsertLink (s : InMemoryGraph) (link : Link) : InMemoryGraph × Link :=
  match s.links.find? (fun l => l.url == link.url) with
  | some existing =>
      -- existing URL: convert into an update, point ID at the existing link
      let link' : Link := { link with id := existing.id }
      -- `*existing = *link`; restore origTs when it is strictly newer
      let stored : Link :=
        if existing.retrievedAt > link'.retrievedAt then
          { link' with retrievedAt := existing.retrievedAt }
        else link'
      ({ s with links := s.links.map (fun l => if l.url == link.url then stored else l) },
       link')
  | none =>
      -- assign new ID and insert a copy
      let link' : Link := { link with id := s.nextId }
      ({ s with links := s.links ++ [link'], nextId := s.nextId + 1 }, link')

/-- UpsertEdge models `InMemoryGraph.UpsertEdge` verbatim, including the
comparison `existing.Src == edge.Src && existing.Dst == edge.Src` used by
the source to detect an existing edge. -/
def UpsertEdge (s : InMemoryGraph) (edge : Edge) (now : Nat) :
    Except StoreErr (InMemoryGraph × Edge) :=
  if ¬ (s.links.any (fun l => l.id == edge.src)) ∨
     ¬ (s.links.any (fun l => l.id == edge.dst)) then
    .error .unknownEdgeLinks
  else
    match s.edges.find? (fun existing =>
        existing.src == edge.src && existing.dst == edge.src) with
    | some existing =>
        let updated : Edge := { existing with updatedAt := now }
        .ok ({ s with edges :=
                s.edges.map (fun e => if e.id == existing.id then updated else e) },
             updated)
    | none =>
        let e' : Edge := { edge with id := s.nextId, updatedAt := now }
        .ok ({ s with edges := s.edges ++ [e'], nextId := s.nextId + 1 }, e')

/-- RemoveStaleEdges models `InMemoryGraph.RemoveStaleEdges`: drop edges
from `fromID` whose `UpdatedAt` is before the cutoff. -/
def RemoveStaleEdges (s : InMemoryGraph) (fromID : Nat) (updatedBefore : Nat) :
    InMemoryGraph :=
  { s with edges :=
      s.edges.filter (fun e => !(e.src == fromID && decide (e.updatedAt < updatedBefore))) }

/-- Links models `InMemoryGraph.Links`: links whose id lies in
`[fromID, toID)` and whose `RetrievedAt` is before the cutoff.  The Go code
compares the canonical UUID strings, which coincides with numeric order. -/
def Links (s : InMemoryGraph) (fromID toID : Nat) (retrievedBefore : Nat) :
    List Link :=
  s.links.filter (fun l =>
    decide (fromID ≤ l.id) && decide (l.id < toID) &&
    decide (l.retrievedAt < retrievedBefore))

/-- UpsertLinkSeq replays a sequence of `UpsertLink` calls that share the
URL `u`; each submission carries an id (which `UpsertLink` ignores) and a
`RetrievedAt` value. -/
def UpsertLinkSeq (s : InMemoryGraph) (u : String) (subs : List (Nat × Nat)) :
    InMemoryGraph :=
  subs.foldl
    (fun st sub => (UpsertLink st { id := sub.1, url := u, retrievedAt := sub.2 }).1) s

/-- twoLinkStore is a store holding two resolved links (ids 1 and 2), the
precondition of an edge upsert. -/
def twoLinkStore : InMemoryGraph :=
  { links := [{ id := 1, url := "a", retrievedAt := 0 },
              { id := 2, url := "b", retrievedAt := 0 }],
    edges := [], nextId := 3 }

/-- upsertEdgeTwice performs two `UpsertEdge` calls with the same
`(Src, Dst) = (1, 2)` pair, at times 10 and 20, on `twoLinkStore`. -/
def upsertEdgeTwice : Except StoreErr InMemoryGraph := do
  let r1 ← UpsertEdge twoLinkStore { id := 0, src := 1, dst := 2, updatedAt := 0 } 10
  let r2 ← UpsertEdge r1.1 { id := 0, src := 1, dst := 2, updatedAt := 0 } 20
  pure r2.1

end LinkGraph

namespace Crawler

/-- crawlerPayload models the fields of `crawler.crawlerPayload` read by the
graph-updater stage (`LinkID`, `URL`, `NoFollowLinks`, `Links`); the raw
content / title / text fields are not touched by that stage. -/
structure crawlerPayload where
  linkID : Nat
  url : String
  noFollowLinks : List String
  links : List String
  deriving Repr, DecidableEq

/-- Process models `graphUpdater.Process` instantiated with the in-memory
graph store.  It follows the source line by line: upsert the source link
with a fresh `RetrievedAt`, upsert each no-follow URL, then for every
follow URL the source calls `UpsertLink(src)` (not `dst`), so the
destination's ID keeps its zero value when the edge is upserted; finally
stale edges of the source are removed.  All `time.Now()` readings are the
`now` argument. -/
def Process (st : LinkGraph.InMemoryGraph) (p : crawlerPayload) (now : Nat) :
    Except LinkGraph.StoreErr LinkGraph.InMemoryGraph :=
  let src : LinkGraph.Link := { id := p.linkID, url := p.url, retrievedAt := now }
  let r1 := LinkGraph.UpsertLink st src
  let src1 := r1.2
  -- upsert discovered no-follow links without creating an edge
  let st2 := p.noFollowLinks.foldl
    (fun st d => (LinkGraph.UpsertLink st { id := 0, url := d, retrievedAt := 0 }).1) r1.1
  -- upsert discovered links and create edges for them; the source upserts
  -- `src` here, so `dst.ID` keeps the nil UUID (0 in this model)
  let follow := p.links.foldlM
    (fun st _d =>
      let r := LinkGraph.UpsertLink st src1
      (LinkGraph.UpsertEdge r.1 { id := 0, src := r.2.id, dst := 0, updatedAt := 0 } now).map
        (fun x => x.1))
    st2
  follow.map (fun st => LinkGraph.RemoveStaleEdges st src1.id now)

end Crawler

namespace Partition

/-- maxUUID is `ffffffff-ffff-ffff-ffff-ffffffffffff` as a number. -/
def maxUUID : Nat := 2 ^ 128 - 1

/-- partSize models `partSize.SetBytes(maxUUID).Div(numPartitions)` in
`SuiteBase.partitionRange`: the byte string of `maxUUID` is `2^128 - 1`. -/
def partSize (numPartitions : Nat) : Nat := maxUUID / numPartitions

/-- fromID models the `from` endpoint computed by
`SuiteBase.partitionRange`. -/
def fromID (p numPartitions : Nat) : Nat :=
  if p = 0 then 0 else p * partSize numPartitions

/-- toID models the `to` endpoint computed by `SuiteBase.partitionRange`. -/
def toID (p numPartitions : Nat) : Nat :=
  if p = numPartitions - 1 then maxUUID else (p + 1) * partSize numPartitions

end Partition

namespace Bsp

/-- Edge mirrors `bspgraph.Edge`: a destination vertex ID plus a value. -/
structure Edge (E : Type) where
  dstID : String
  value : E
  deriving Repr, DecidableEq

/-- Vertex mirrors `bspgraph.Vertex`; the two `message.Queue` instances
produced by the in-memory queue factory are lists (`Enqueue` appends,
`DiscardMessages` clears). -/
structure Vertex (V E M : Type) where
  id : String
  value : V
  active : Bool
  q0 : List M
  q1 : List M
  edges : List (Edge E)
  deriving Repr, DecidableEq

/-- RelayOutcome models the error result of `Relayer.Relay`: success (nil),
the `ErrDestinationIsLocal` sentinel, or some other failure. -/
inductive RelayOutcome where
  | ok
  | destinationIsLocal
  | failed
  deriving Repr, DecidableEq

/-- SendErr models the errors returned by `Graph.SendMessage`. -/
inductive SendErr where
  | invalidMessageDestination
  | relayFailed
  deriving Repr, DecidableEq

/-- Graph mirrors `bspgraph.Graph`: the `vertices` map is a function from
IDs plus the list of keys (`ids`) giving the iteration order of the Go
`range` loop; `relayer` and the current `superstep` are carried verbatim.
The compute function and worker channels are passed to the step functions
explicitly. -/
structure Graph (V E M : Type) where
  ids : List String
  vertices : String → Option (Vertex V E M)
  relayer : Option (String → M → RelayOutcome)
  superstep : Nat

/-- ComputeFunc models the effect of a user compute function on its vertex:
given the superstep, the vertex and the messages delivered to it, it yields
the vertex's new value, its new active flag (`Freeze` clears it) and the
messages it sends via `SendMessage`/`BroadcastToNeighbors`. -/
def ComputeFunc (V E M : Type) : Type :=
  Nat → Vertex V E M → List M → V × Bool × List (String × M)

/-- NewGraph is the empty graph produced by `bspgraph.NewGraph`. -/
def NewGraph (V E M : Type) : Graph V E M :=
  { ids := [], vertices := fun _ => none, relayer := none, superstep := 0 }

/-- queueAt selects `msgQueue[idx]` (queues are indexed by parity). -/
def queueAt {V E M : Type} (v : Vertex V E M) (idx : Nat) : List M :=
  if idx % 2 = 0 then v.q0 else v.q1

/-- setQueue replaces `msgQueue[idx]`. -/
def setQueue {V E M : Type} (v : Vertex V E M) (idx : Nat) (q : List M) :
    Vertex V E M :=
  if idx % 2 = 0 then { v with q0 := q } else { v with q1 := q }

/-- enqueueMsg models `dstVert.msgQueue[idx].Enqueue(msg)` on the graph:
the destination's queue gets the message appended; an unknown destination
leaves the graph unchanged (callers check existence first). -/
def enqueueMsg {V E M : Type} (g : Graph V E M) (idx : Nat) (dst : String)
    (m : M) : Graph V E M :=
  { g with vertices := fun j =>
      if j = dst then (g.vertices dst).map (fun v => setQueue v idx (queueAt v idx ++ [m]))
      else g.vertices j }

/-- SendMessage models `Graph.SendMessage`: enqueue locally into the
`(superstep+1) % 2` queue (the in-memory queue's `Enqueue` always
succeeds), otherwise delegate to the relayer, falling through to
`ErrInvalidMessageDestination` when there is none or it answers with the
`ErrDestinationIsLocal` sentinel. -/
def SendMessage {V E M : Type} (g : Graph V E M) (dstID : String) (msg : M) :
    Except SendErr (Graph V E M) :=
  match g.vertices dstID with
  | some _ => .ok (enqueueMsg g ((g.superstep + 1) % 2) dstID msg)
  | none =>
    match g.relayer with
    | some relay =>
      match relay dstID msg with
      | .destinationIsLocal => .error .invalidMessageDestination
      | .ok => .ok g
      | .failed => .error .relayFailed
    | none => .error .invalidMessageDestination

/-- AddVertex models `Graph.AddVertex`: a fresh vertex is created (active,
two fresh queues, no edges) only when the ID is unknown; then the value is
overwritten in both cases. -/
def AddVertex {V E M : Type} (g : Graph V E M) (id : String) (initValue : V) :
    Graph V E M :=
  match g.vertices id with
  | some v =>
      { g with vertices := fun j =>
          if j = id then some { v with value := initValue } else g.vertices j }
  | none =>
      let v : Vertex V E M :=
        { id := id, value := initValue, active := true, q0 := [], q1 := [], edges := [] }
      { g with ids := g.ids ++ [id],
               vertices := fun j => if j = id then some v else g.vertices j }

/-- AddEdge models `Graph.AddEdge`: append an edge to the source vertex, or
fail (`ErrUnknownEdgeSource`) when the source is unknown. -/
def AddEdge {V E M : Type} (g : Graph V E M) (srcID dstID : String)
    (initialValue : E) : Except Unit (Graph V E M) :=
  match g.vertices srcID with
  | none => .error ()
  | some v =>
      .ok { g with vertices := fun j =>
        if j = srcID then some { v with edges := v.edges ++ [⟨dstID, initialValue⟩] }
        else g.vertices j }

/-- stepBody is one iteration of the `for _, v := range g.vertices` loop in
`Graph.step`/`stepWorker`: if the vertex is active or has a pending message
in queue `superstep % 2`, mark it active, run the compute function, store
its new value/active flag, discard the consumed queue, and apply its sends
to the `(superstep+1) % 2` queues.  The accumulator carries the graph, the
`activeInStep` counter, and the log of messages sent so far. -/
def stepBody {V E M : Type} (compute : ComputeFunc V E M)
    (acc : Graph V E M × Nat × List (String × M)) (id : String) :
    Graph V E M × Nat × List (String × M) :=
  let st := acc.1
  let buf := st.superstep % 2
  match st.vertices id with
  | none => acc
  | some v =>
    if v.active || !(queueAt v buf).isEmpty then
      let msgs := queueAt v buf
      let r := compute st.superstep { v with active := true } msgs
      let v' := setQueue { v with value := r.1, active := r.2.1 } buf []
      let st' : Graph V E M :=
        { st with vertices := fun j => if j = id then some v' else st.vertices j }
      let st'' := r.2.2.foldl
        (fun s dm => enqueueMsg s ((st.superstep + 1) % 2) dm.1 dm.2) st'
      (st'', acc.2.1 + 1, acc.2.2 ++ r.2.2)
    else acc

/-- runStep models `Graph.step`: every vertex is delivered to the workers
once; the result is the new graph state, the `activeInStep` count, and the
log of all messages sent during the step.  (The map iteration order is the
`ids` list; which claims hold never depends on that order.) -/
def runStep {V E M : Type} (compute : ComputeFunc V E M) (g : Graph V E M) :
    Graph V E M × Nat × List (String × M) :=
  g.ids.foldl (stepBody compute) (g, 0, [])

/-- stepNext advances one superstep the way `Executor.run` does between
loop iterations: run the step, then increment `superstep`. -/
def stepNext {V E M : Type} (compute : ComputeFunc V E M) (g : Graph V E M) :
    Graph V E M :=
  let r := runStep compute g
  { r.1 with superstep := r.1.superstep + 1 }

/-- msgsFor is the message list the vertex `dst` consumes at the current
superstep: the contents of its `superstep % 2` queue. -/
def msgsFor {V E M : Type} (g : Graph V E M) (dst : String) : List M :=
  match g.vertices dst with
  | some v => queueAt v (g.superstep % 2)
  | none => []

/-- msgsTo restricts a send log to the messages addressed to `j`. -/
def msgsTo {M : Type} (log : List (String × M)) (j : String) : List M :=
  (log.filter (fun dm => dm.1 == j)).map (fun dm => dm.2)

/-- sentTo collects the messages sent to `dst` during the step executed
from state `g`. -/
def sentTo {V E M : Type} (compute : ComputeFunc V E M) (g : Graph V E M)
    (dst : String) : List M :=
  msgsTo (runStep compute g).2.2 dst

/-- defaultKeepRunning is the `PostStepKeepRunning` installed by
`patchEmptyCallbacks` when the caller supplies none: it always answers
`true`. -/
def defaultKeepRunning : Nat → Bool := fun _ => true

/-- activeKeepRunning is the callback the repository's tests install:
keep running while some vertex was active in the step. -/
def activeKeepRunning : Nat → Bool := fun activeInStep => activeInStep != 0

/-- runFuel models `Executor.run` for `RunToCompletion` (`maxSteps = -1`,
so the loop guard `maxSteps != 0` never stops it): check nothing fails,
run a step, consult `PostStepKeepRunning`, and either loop (incrementing
`superstep`) or return the final graph.  `fuel` bounds the number of loop
iterations observed: `none` means the loop was still running after `fuel`
iterations, so termination of `RunToCompletion` is `∃ fuel, runFuel … =
some _`.  `PreStep`/`PostStep` are the no-ops installed by
`patchEmptyCallbacks`, the context never expires and compute never errs. -/
def runFuel {V E M : Type} (compute : ComputeFunc V E M)
    (keepRunning : Nat → Bool) : Nat → Graph V E M → Option (Graph V E M)
  | 0, _ => none
  | fuel + 1, g =>
    let r := runStep compute g
    if keepRunning r.2.1 then
      runFuel compute keepRunning fuel { r.1 with superstep := r.1.superstep + 1 }
    else some r.1

/-- bcastCompute is the compute function of the three-vertex broadcast
scenario: on superstep 0 vertex `A` sends `7` to each neighbour and every
vertex freezes; on later supersteps a woken vertex records the maximum
received message and freezes again. -/
def bcastCompute : ComputeFunc Nat Unit Nat := fun s v msgs =>
  if s == 0 then
    (v.value, false, if v.id == "A" then v.edges.map (fun e => (e.dstID, 7)) else [])
  else
    (msgs.foldl max v.value, false, [])

/-- bcastGraph is the three-vertex scenario graph: vertices `A`, `B`, `C`
with value 0 and edges `A → B`, `A → C`. -/
def bcastGraph : Graph Nat Unit Nat :=
  let g := AddVertex (AddVertex (AddVertex (NewGraph Nat Unit Nat) "A" 0) "B" 0) "C" 0
  let g := match AddEdge g "A" "B" () with | .ok g' => g' | .error _ => g
  match AddEdge g "A" "C" () with | .ok g' => g' | .error _ => g

/-- sendSeven is a compute function used as a concrete instance: on
superstep 0 vertex `A` sends `7` to `B` and freezes; everything else
records the maximum received message and freezes. -/
def sendSeven : ComputeFunc Nat Unit Nat := fun s v msgs =>
  if s == 0 && v.id == "A" then (v.value, false, [("B", 7)])
  else (msgs.foldl max v.value, false, [])

/-- twoVertexGraph is a two-vertex graph (`A`, `B`, both value 0) used as a
concrete instance. -/
def twoVertexGraph : Graph Nat Unit Nat :=
  AddVertex (AddVertex (NewGraph Nat Unit Nat) "A" 0) "B" 0

end Bsp

namespace Aggregator

/-- Float64Accumulator mirrors `aggregator.Float64Accumulator`; both fields
hold IEEE-754 bit patterns, modelled as the 64-bit pattern's numeric
value (`Set`/`Get` only move patterns around, they never do float
arithmetic). -/
structure Float64Accumulator where
  prevSum : Nat
  curSum : Nat
  deriving Repr, DecidableEq

/-- Get models `Float64Accumulator.Get`: an atomic load of `curSum`. -/
def Get (a : Float64Accumulator) : Nat := a.curSum

/-- cas is sequential compare-and-swap: returns the new cell contents and
whether the swap happened. -/
def cas (cell expected desired : Nat) : Nat × Bool :=
  if cell = expected then (desired, true) else (cell, false)

/-- SetOnce is one iteration of the retry loop in
`Float64Accumulator.Set`, exactly as written in the source: read both
fields, CAS `curSum` from `oldCur` to `v`, then CAS `curSum` (the source
targets `curSum` again, not `prevSum`) from `oldPrev` to `v`; the loop
exits only when both swaps succeeded. -/
def SetOnce (a : Float64Accumulator) (v : Nat) : Float64Accumulator × Bool :=
  let oldCur := a.curSum
  let oldPrev := a.prevSum
  let r1 := cas a.curSum oldCur v
  let r2 := cas r1.1 oldPrev v
  ({ a with curSum := r2.1 }, r1.2 && r2.2)

/-- SetFuel iterates the retry loop of `Float64Accumulator.Set` (run
single-threaded, with no interleaved operations) for at most `fuel`
rounds; `none` means the call had not returned yet. -/
def SetFuel : Nat → Float64Accumulator → Nat → Option Float64Accumulator
  | 0, _, _ => none
  | fuel + 1, a, v =>
    let r := SetOnce a v
    if r.2 then some r.1 else SetFuel fuel r.1 v

/-- oneBits is the IEEE-754 bit pattern of the float64 value `1.0`. -/
def oneBits : Nat := 4607182418800017408

end Aggregator

namespace Pipeline

/-- broadcastDeliveries models the inner delivery loop of `broadcast.Run`
for a single input payload: sub-FIFO `m-1` down to sub-FIFO `0` each
receive the payload, every index other than `0` receiving
`payload.Clone()`. -/
def broadcastDeliveries {P : Type} (clone : P → P) (m : Nat) (p : P) :
    List (Nat × P) :=
  (List.range m).reverse.map (fun i => (i, if i = 0 then p else clone p))

/-- broadcastRun models `broadcast.Run` consuming the whole input stream
without error or cancellation, composed with pass-through sub-processors:
each delivered payload is forwarded unchanged by its FIFO to the shared
output channel, so the downstream sees exactly the deliveries. -/
def broadcastRun {P : Type} (clone : P → P) (m : Nat) (inputs : List P) :
    List (Nat × P) :=
  inputs.flatMap (broadcastDeliveries clone m)

/-- getCount models `countingSink.getCount`: the crawl pipeline ends in a
2-way broadcast, so the sink divides its raw count by 2. -/
def getCount (count : Nat) : Nat := count / 2

end Pipeline

/-! ### Theorems -/

namespace LinkGraph

/-- Claim C1.  The claim states that after any sequence of `UpsertEdge`
calls with the same `(Src, Dst)` pair exactly one such edge exists and
later calls only rewrite `UpdatedAt`.  The code violates this: its
existing-edge scan compares `existing.Dst` with `edge.Src` (instead of
`edge.Dst`), so a second upsert of `(1, 2)` on a store holding links 1 and
2 inserts a second `(1, 2)` edge instead of updating the first.  The
repository's own `SuiteBase.TestUpsertEdge` (registered for the in-memory
store) expects the second upsert to keep the edge's ID, so this is a code
bug. -/
theorem upsertEdge_creates_duplicate_src_dst_pair :
    upsertEdgeTwice.map
      (fun s => s.edges.countP (fun e => e.src == 1 && e.dst == 2)) = .ok 2 := by
  rfl

end LinkGraph

namespace Crawler

/-- Claim C2.  The claim states that each follow URL is upserted as a
destination link (acquiring its stored ID) and an edge from the source's
ID to that destination's ID is upserted.  The code instead calls
`UpsertLink(src)` inside the follow loop, so the destination keeps the nil
UUID and `UpsertEdge` fails with `ErrUnknownEdgeLinks`: on an empty store,
a payload with one follow link makes `Process` return that error instead
of storing the destination link and edge.  The spec's design notes
acknowledge the slip ("the correct intent is clearly to upsert the
destination"), so this is a code bug. -/
theorem process_follow_link_fails_with_unknown_edge_links :
    Process LinkGraph.NewInMemoryGraph
      { linkID := 0, url := "u", noFollowLinks := [], links := ["v"] } 5 =
      .error .unknownEdgeLinks := by
  rfl

end Crawler

namespace Aggregator

/-- Claim C7.  The claim states `Set(v)` always terminates and a `Get()`
right after returns `v`.  In the source, the second compare-and-swap of
the retry loop targets `curSum` again instead of `prevSum`, so it can only
succeed when `prevSum`'s bit pattern already equals `v`; otherwise the
loop retries forever (`prevSum` is never written).  This theorem shows the
single-threaded run never finishes, for any amount of fuel, whenever
`prevSum ≠ v` — a code bug (the spec's accumulator contract is the clear
intent, and the matching `Aggregate` loop CASes the field it read). -/
theorem float64Set_never_terminates (n : Nat) (a : Float64Accumulator) (v : Nat)
    (h : a.prevSum ≠ v) : SetFuel n a v = none := by
  induction n generalizing a with
  | zero => rfl
  | succ k ih =>
    have h1 : cas a.curSum a.curSum v = (v, true) := by simp [cas]
    have h2 : cas v a.prevSum v = (v, false) := by
      simp only [cas, if_neg (fun hh : v = a.prevSum => h hh.symm)]
    have hso : SetOnce a v = ({ a with curSum := v }, false) := by
      simp only [SetOnce, h1, h2, Bool.true_and]
    simp only [SetFuel, hso, Bool.false_eq_true, if_false]
    exact ih { a with curSum := v } h

/-- Witness for C7: a fresh accumulator being set to the bit pattern of
`1.0` spins (here observed for 5 rounds of the retry loop). -/
theorem float64Set_never_terminates_witness :
    (({ prevSum := 0, curSum := 0 } : Float64Accumulator).prevSum ≠ oneBits) ∧
      SetFuel 5 { prevSum := 0, curSum := 0 } oneBits = none :=
  ⟨by decide, float64Set_never_terminates 5 { prevSum := 0, curSum := 0 } oneBits (by decide)⟩

end Aggregator

namespace Bsp

/-- With the always-true `PostStepKeepRunning` installed by
`patchEmptyCallbacks`, the executor loop never takes its exit branch, for
any compute function and any starting graph. -/
theorem runFuel_default_eq_none {V E M : Type} (compute : ComputeFunc V E M)
    (fuel : Nat) (g : Graph V E M) :
    runFuel compute defaultKeepRunning fuel g = none := by
  induction fuel generalizing g with
  | zero => rfl
  | succ k ih => simpa [runFuel, defaultKeepRunning] using ih _

/-- Claim C3, counterexample.  The claim states a BSP run terminates when
all vertices freeze and no messages remain, even with no
`PostStepKeepRunning` callback, and that `RunToCompletion` returns on the
three-vertex broadcast scenario.  `Executor.run` has no quiescence check:
with the default callback (always `true`), `maxSteps = -1` never reaches
0, so the loop never exits.  On the broadcast scenario with the default
callbacks, no number of loop iterations completes the run. -/
theorem runToCompletion_default_callbacks_never_returns :
    ¬ ∃ (fuel : Nat) (gf : Graph Nat Unit Nat),
        runFuel bcastCompute defaultKeepRunning fuel bcastGraph = some gf := by
  rintro ⟨fuel, gf, hrun⟩
  rw [runFuel_default_eq_none] at hrun
  exact Option.noConfusion hrun

/-- Claim C3, amended: a run terminates only when `PostStepKeepRunning`
answers false (or on max-steps / error / context cancellation); with the
callback the repository's tests install (`activeInStep ≠ 0`), the
three-vertex broadcast scenario terminates, ending with total supersteps
= 2 and `B.Value = C.Value = 7`. -/
theorem runToCompletion_active_callback_terminates :
    (runFuel bcastCompute activeKeepRunning 3 bcastGraph).isSome = true ∧
      (runFuel bcastCompute activeKeepRunning 3 bcastGraph).map Graph.superstep =
        some 2 ∧
      (runFuel bcastCompute activeKeepRunning 3 bcastGraph).map
          (fun g => (g.vertices "B").map Vertex.value) = some (some 7) ∧
      (runFuel bcastCompute activeKeepRunning 3 bcastGraph).map
          (fun g => (g.vertices "C").map Vertex.value) = some (some 7) :=
  ⟨rfl, rfl, rfl, rfl⟩

/-- Claim C10, confirmed.  `AddVertex` on an existing ID overwrites only
the vertex's value — edge list, both message queues and the active flag
are untouched (`some { v with value := init }`), so a frozen vertex stays
frozen and queued messages survive; on a new ID it creates a vertex with
`active = true`, no edges and two fresh (empty) queues; other IDs are
never affected. -/
theorem addVertex_overwrites_value_only {V E M : Type} (g : Graph V E M)
    (id : String) (init : V) :
    (∀ v, g.vertices id = some v →
        (AddVertex g id init).vertices id = some { v with value := init } ∧
        (AddVertex g id init).ids = g.ids) ∧
    (g.vertices id = none →
        (AddVertex g id init).vertices id =
          some { id := id, value := init, active := true, q0 := [], q1 := [],
                 edges := [] } ∧
        (AddVertex g id init).ids = g.ids ++ [id]) ∧
    (∀ j, j ≠ id → (AddVertex g id init).vertices j = g.vertices j) := by
  refine ⟨?_, ?_, ?_⟩
  · intro v hv
    simp [AddVertex, hv]
  · intro hv
    simp [AddVertex, hv]
  · intro j hj
    cases hv : g.vertices id <;> simp [AddVertex, hv, hj]

/-- Claim C9, confirmed.  `SendMessage` resolution: a local destination
gets the message enqueued into its `(superstep+1) % 2` queue (the
in-memory queue's enqueue result, which is success); a non-local
destination goes through the relayer, whose result is returned unless it
is the `ErrDestinationIsLocal` sentinel; and the result wraps
`ErrInvalidMessageDestination` exactly when the destination is not local
and there is no relayer or the relayer answered with the sentinel. -/
theorem sendMessage_resolution {V E M : Type} (g : Graph V E M)
    (dstID : String) (msg : M) :
    (∀ v, g.vertices dstID = some v →
        SendMessage g dstID msg =
          .ok (enqueueMsg g ((g.superstep + 1) % 2) dstID msg)) ∧
    (g.vertices dstID = none → ∀ relay, g.relayer = some relay →
        (relay dstID msg = .ok → SendMessage g dstID msg = .ok g) ∧
        (relay dstID msg = .failed →
            SendMessage g dstID msg = .error .relayFailed)) ∧
    (SendMessage g dstID msg = .error .invalidMessageDestination ↔
      g.vertices dstID = none ∧
        (g.relayer = none ∨
          ∃ relay, g.relayer = some relay ∧
            relay dstID msg = .destinationIsLocal)) := by
  refine ⟨?_, ?_, ?_⟩
  · intro v hv
    simp [SendMessage, hv]
  · intro hv relay hr
    constructor <;> intro hrel <;> simp [SendMessage, hv, hr, hrel]
  · constructor
    · intro hsend
      cases hv : g.vertices dstID with
      | some v => simp [SendMessage, hv] at hsend
      | none =>
        refine ⟨rfl, ?_⟩
        cases hr : g.relayer with
        | none => exact Or.inl rfl
        | some relay =>
          refine Or.inr ⟨relay, rfl, ?_⟩
          cases hrel : relay dstID msg <;>
            simp [SendMessage, hv, hr, hrel] at hsend ⊢
    · rintro ⟨hv, hr | ⟨relay, hr, hrel⟩⟩
      · simp [SendMessage, hv, hr]
      · simp [SendMessage, hv, hr, hrel]

end Bsp

namespace Pipeline

/-- Each input payload is delivered to exactly `m` sub-FIFOs. -/
theorem broadcastDeliveries_length {P : Type} (clone : P → P) (m : Nat) (p : P) :
    (broadcastDeliveries clone m p).length = m := by
  simp [broadcastDeliveries]

/-- The broadcast stage forwards `m` payloads downstream per input. -/
theorem broadcastRun_length {P : Type} (clone : P → P) (m : Nat)
    (inputs : List P) :
    (broadcastRun clone m inputs).length = m * inputs.length := by
  induction inputs with
  | nil => simp [broadcastRun]
  | cons h t ih =>
    show ((h :: t).flatMap (broadcastDeliveries clone m)).length = m * (h :: t).length
    rw [List.flatMap_cons, List.length_append, broadcastDeliveries_length]
    have ht : (t.flatMap (broadcastDeliveries clone m)).length = m * t.length := ih
    rw [ht, List.length_cons]
    ring

/-- Exactly one delivery per input goes to sub-FIFO 0 (the one that
receives the payload itself rather than a clone). -/
theorem broadcastDeliveries_one_original {P : Type} (clone : P → P) (m : Nat)
    (hm : 1 ≤ m) (p : P) :
    (broadcastDeliveries clone m p).countP (fun d => d.1 == 0) = 1 := by
  obtain ⟨k, rfl⟩ : ∃ k, m = k + 1 := ⟨m - 1, by omega⟩
  rw [broadcastDeliveries, List.countP_map, List.countP_reverse,
    List.range_succ_eq_map, List.countP_cons, List.countP_map]
  have hz : List.countP
      (((fun d => d.1 == 0) ∘ fun i => (i, if i = 0 then p else clone p)) ∘ Nat.succ)
      (List.range k) = 0 := by
    refine List.countP_eq_zero.mpr ?_
    intro i _
    simp [Function.comp]
  rw [hz]
  simp [Function.comp]

/-- Claim C8, confirmed.  An `m`-way broadcast (`m ≥ 1`) of the input
stream with pass-through sub-processors puts exactly `m · n` payloads on
the downstream channel (`n` = number of inputs); dividing the downstream
count by `m` recovers `n` (and the crawler's `countingSink.getCount`,
which divides by 2, recovers `n` for the 2-way crawl broadcast); each
input is delivered to all `m` sub-processors, sub-FIFO 0 receiving the
payload itself and every other sub-FIFO receiving `payload.Clone()`. -/
theorem broadcast_m_way_counts {P : Type} (clone : P → P) (m : Nat)
    (hm : 1 ≤ m) (inputs : List P) :
    (broadcastRun clone m inputs).length = m * inputs.length ∧
    (broadcastRun clone m inputs).length / m = inputs.length ∧
    getCount (broadcastRun clone 2 inputs).length = inputs.length ∧
    (∀ p : P, (broadcastDeliveries clone m p).length = m ∧
      (broadcastDeliveries clone m p).countP (fun d => d.1 == 0) = 1 ∧
      ∀ d ∈ broadcastDeliveries clone m p,
        d.2 = if d.1 = 0 then p else clone p) := by
  refine ⟨broadcastRun_length clone m inputs, ?_, ?_, ?_⟩
  · rw [broadcastRun_length clone m inputs]
    exact Nat.mul_div_cancel_left inputs.length (by omega)
  · rw [getCount, broadcastRun_length clone 2 inputs]
    omega
  · intro p
    refine ⟨broadcastDeliveries_length clone m p,
      broadcastDeliveries_one_original clone m hm p, ?_⟩
    intro d hd
    simp only [broadcastDeliveries, List.mem_map] at hd
    obtain ⟨i, _, rfl⟩ := hd
    rfl

/-- Witness for C8: a 2-way broadcast of one payload yields two outputs
and the counting sink recovers 1. -/
theorem broadcast_m_way_counts_witness :
    (1 ≤ 2) ∧
      ((broadcastRun (fun n : Nat => n) 2 [5]).length = 2 * [5].length ∧
      (broadcastRun (fun n : Nat => n) 2 [5]).length / 2 = [5].length ∧
      getCount (broadcastRun (fun n : Nat => n) 2 [5]).length = [5].length ∧
      (∀ p : Nat,
        (broadcastDeliveries (fun n : Nat => n) 2 p).length = 2 ∧
        (broadcastDeliveries (fun n : Nat => n) 2 p).countP
          (fun d => d.1 == 0) = 1 ∧
        ∀ d ∈ broadcastDeliveries (fun n : Nat => n) 2 p,
          d.2 = if d.1 = 0 then p else (fun n : Nat => n) p)) :=
  ⟨by decide, broadcast_m_way_counts (fun n : Nat => n) 2 (by decide) [5]⟩

end Pipeline

namespace LinkGraph

/-- Auxiliary: `find?` skips a prefix in which nothing matches. -/
theorem find?_append_of_none {α : Type} (p : α → Bool) (l₁ l₂ : List α)
    (h : l₁.find? p = none) : (l₁ ++ l₂).find? p = l₂.find? p := by
  rw [List.find?_append, h, Option.none_or]

/-- Auxiliary: rewriting every URL-matching link to `w` makes `find?` on
that URL return `w`, provided some link matched before. -/
theorem find?_map_update (u : String) (w : Link) (hw : w.url = u) :
    ∀ (xs : List Link) (ex : Link),
      xs.find? (fun l => l.url == u) = some ex →
      (xs.map (fun l => if l.url == u then w else l)).find?
        (fun l => l.url == u) = some w := by
  intro xs
  induction xs with
  | nil => intro ex h; simp at h
  | cons a t ih =>
    intro ex h
    by_cases ha : a.url = u
    · simp only [List.map_cons]
      have hfa : (if a.url == u then w else a) = w := by simp [ha]
      rw [hfa]
      exact @List.find?_cons_of_pos _ (fun l => l.url == u) w _ (by simp [hw])
    · have ha' : ¬ ((a.url == u) = true) := by simp [ha]
      have h' : t.find? (fun l => l.url == u) = some ex := by
        rwa [@List.find?_cons_of_neg _ (fun l => l.url == u) a t ha'] at h
      simp only [List.map_cons]
      have hfa : (if a.url == u then w else a) = a := by simp [ha]
      rw [hfa, @List.find?_cons_of_neg _ (fun l => l.url == u) a _ ha']
      exact ih ex h'

/-- Auxiliary: upserting URL `u` when a link `⟨i, u, r⟩` is stored keeps
the ID and raises `RetrievedAt` to the maximum of old and new. -/
theorem upsertLink_find_update (st : InMemoryGraph) (u : String) (i r : Nat)
    (hfind : st.links.find? (fun l => l.url == u) = some ⟨i, u, r⟩)
    (subId t : Nat) :
    (UpsertLink st { id := subId, url := u, retrievedAt := t }).1.links.find?
      (fun l => l.url == u) = some ⟨i, u, max r t⟩ := by
  have hmax : (if r > t then (⟨i, u, r⟩ : Link) else ⟨i, u, t⟩) = ⟨i, u, max r t⟩ := by
    by_cases hrt : r > t
    · simp [hrt, Nat.max_eq_left (Nat.le_of_lt hrt)]
    · have hle : r ≤ t := by omega
      simp [hrt, Nat.max_eq_right hle]
  have hms := find?_map_update u
    (if r > t then (⟨i, u, r⟩ : Link) else ⟨i, u, t⟩) (by split <;> rfl)
    st.links ⟨i, u, r⟩ hfind
  simp only [UpsertLink, hfind]
  rw [← hmax]
  exact hms

/-- Auxiliary: upserting a fresh URL inserts it with ID `nextId` and the
submitted `RetrievedAt`. -/
theorem upsertLink_find_insert (s : InMemoryGraph) (u : String) (subId t : Nat)
    (hfresh : s.links.find? (fun l => l.url == u) = none) :
    (UpsertLink s { id := subId, url := u, retrievedAt := t }).1.links.find?
      (fun l => l.url == u) = some ⟨s.nextId, u, t⟩ := by
  simp only [UpsertLink, hfresh]
  rw [find?_append_of_none _ _ _ hfresh]
  simp [List.find?_cons]

/-- Auxiliary: replaying same-URL upserts from a store where `⟨i, u, r⟩`
is found keeps the ID and folds `max` over the submitted values. -/
theorem upsertLinkSeq_from_found (u : String) :
    ∀ (subs : List (Nat × Nat)) (st : InMemoryGraph) (i r : Nat),
      st.links.find? (fun l => l.url == u) = some ⟨i, u, r⟩ →
      (UpsertLinkSeq st u subs).links.find? (fun l => l.url == u) =
        some ⟨i, u, subs.foldl (fun acc x => max acc x.2) r⟩ := by
  intro subs
  induction subs with
  | nil => intro st i r h; simpa [UpsertLinkSeq] using h
  | cons x xs ih =>
    intro st i r h
    have h1 := upsertLink_find_update st u i r h x.1 x.2
    have h2 := ih _ i (max r x.2) h1
    simpa [UpsertLinkSeq, List.foldl_cons] using h2

/-- Claim C4, confirmed.  Starting from a store with no link for URL `u`,
any nonempty sequence of `UpsertLink` calls for `u` leaves exactly the
link whose ID was assigned on the first insert and whose `RetrievedAt` is
the maximum of all submitted values — an upsert never overwrites it with
an older value. -/
theorem upsertLink_keeps_id_and_max_retrievedAt (s : InMemoryGraph)
    (u : String) (sub0 : Nat × Nat) (subs : List (Nat × Nat))
    (hfresh : s.links.find? (fun l => l.url == u) = none) :
    (UpsertLinkSeq s u (sub0 :: subs)).links.find? (fun l => l.url == u) =
      some { id := s.nextId, url := u,
             retrievedAt := subs.foldl (fun acc x => max acc x.2) sub0.2 } := by
  have h1 := upsertLink_find_insert s u sub0.1 sub0.2 hfresh
  have h2 := upsertLinkSeq_from_found u subs _ s.nextId sub0.2 h1
  simpa [UpsertLinkSeq, List.foldl_cons] using h2

/-- Witness for C4: the spec's scenario — upserts at times 10, 9, 11 for
URL `a` on the empty store end with ID 1 (the first-assigned) and
`RetrievedAt = 11`. -/
theorem upsertLink_keeps_id_and_max_retrievedAt_witness :
    (NewInMemoryGraph.links.find? (fun l => l.url == "a") = none) ∧
      (UpsertLinkSeq NewInMemoryGraph "a" [(0, 10), (0, 9), (0, 11)]).links.find?
        (fun l => l.url == "a") =
        some { id := 1, url := "a", retrievedAt := 11 } :=
  ⟨rfl, upsertLink_keeps_id_and_max_retrievedAt NewInMemoryGraph "a" (0, 10)
    [(0, 9), (0, 11)] rfl⟩

end LinkGraph

namespace Partition

/-- Auxiliary: `fromID` is `p · size` (also for `p = 0`). -/
theorem fromID_eq (p total : Nat) : fromID p total = p * partSize total := by
  by_cases hp : p = 0 <;> simp [fromID, hp]

/-- Auxiliary: a predicate on `Nat` with exactly one witness below `n` is
counted once over `List.range n`. -/
theorem countP_range_eq_one (P : Nat → Bool) :
    ∀ (n k : Nat), k < n → P k = true → (∀ j, j < n → P j = true → j = k) →
      (List.range n).countP P = 1 := by
  intro n
  induction n with
  | zero => intro k hk _ _; omega
  | succ m ih =>
    intro k hk hPk huniq
    rw [List.range_succ, List.countP_append]
    by_cases hkm : k = m
    · have hz : (List.range m).countP P = 0 := by
        refine List.countP_eq_zero.mpr ?_
        intro j hj hPj
        have hjm : j < m := List.mem_range.mp hj
        have := huniq j (by omega) hPj
        omega
      subst hkm
      simp [hz, List.countP_cons, hPk]
    · have hk' : k < m := by omega
      have h1 : (List.range m).countP P = 1 :=
        ih k hk' hPk (fun j hj hPj => huniq j (by omega) hPj)
      have h2 : ¬ P m = true := by
        intro hc
        exact hkm (huniq m (by omega) hc).symm
      simp [h1, List.countP_cons, h2]

/-- Auxiliary: two distinct partitions have disjoint ranges. -/
theorem partition_ranges_disjoint (total n : Nat) :
    ∀ p q, p < q → q < total →
      fromID p total ≤ n → n < toID p total →
      fromID q total ≤ n → False := by
  intro p q hpq hq _ hPhi hQlo
  have hpne : p ≠ total - 1 := by omega
  have htop : toID p total = (p + 1) * partSize total := by
    rw [toID, if_neg hpne]
  have h1 : n < (p + 1) * partSize total := htop ▸ hPhi
  have h2 : (p + 1) * partSize total ≤ q * partSize total :=
    Nat.mul_le_mul_right _ (by omega)
  have h3 : q * partSize total ≤ n := by
    rw [fromID_eq] at hQlo
    exact hQlo
  omega

/-- Auxiliary: every id below `maxUUID` lies in some partition range. -/
theorem partition_ranges_cover (total n : Nat) (htotal : 1 ≤ total)
    (hn : n < maxUUID) :
    ∃ k, k < total ∧ fromID k total ≤ n ∧ n < toID k total := by
  by_cases hcase : n < (total - 1) * partSize total
  · have hsize : 0 < partSize total := by
      by_contra hz
      have hz0 : partSize total = 0 := by omega
      rw [hz0, Nat.mul_zero] at hcase
      omega
    have hklt : n / partSize total < total - 1 :=
      (Nat.div_lt_iff_lt_mul hsize).mpr hcase
    refine ⟨n / partSize total, by omega, ?_, ?_⟩
    · rw [fromID_eq]
      exact Nat.div_mul_le_self n (partSize total)
    · have hne : n / partSize total ≠ total - 1 := by omega
      rw [toID, if_neg hne]
      have hmod : n % partSize total < partSize total := Nat.mod_lt _ hsize
      have hdm : partSize total * (n / partSize total) + n % partSize total = n :=
        Nat.div_add_mod n (partSize total)
      calc n = partSize total * (n / partSize total) + n % partSize total := hdm.symm
        _ < partSize total * (n / partSize total) + partSize total := by omega
        _ = (n / partSize total + 1) * partSize total := by ring
  · refine ⟨total - 1, by omega, ?_, ?_⟩
    · rw [fromID_eq]
      omega
    · rw [toID, if_pos rfl]
      exact hn

/-- Claim C5, counterexample.  The claim says the union of `Links`
iterators over all partition ranges returns every stored link.  `Links`
filters with `id < to` even for the last partition, whose `to` is the
maximum UUID itself, so a stored link with ID `2^128 − 1` is returned by
no partition: with one partition, the link is in the store but the range
query returns nothing. -/
theorem links_partition_misses_max_uuid :
    (List.range 1).countP (fun p =>
      decide (({ id := maxUUID, url := "m", retrievedAt := 0 } : LinkGraph.Link) ∈
        LinkGraph.Links
          { links := [{ id := maxUUID, url := "m", retrievedAt := 0 }],
            edges := [], nextId := 1 }
          (fromID p 1) (toID p 1) 1)) = 0 ∧
    ({ id := maxUUID, url := "m", retrievedAt := 0 } : LinkGraph.Link) ∈
      ({ links := [{ id := maxUUID, url := "m", retrievedAt := 0 }],
         edges := [], nextId := 1 } : LinkGraph.InMemoryGraph).links := by
  constructor
  · decide
  · simp

/-- Claim C5, amended: for every `total ≥ 1` (even or odd) and every
stored link whose ID is below the maximum UUID (which is where all
version-4 IDs assigned by the store live) and whose `RetrievedAt` is
before the cutoff, exactly one partition's `Links` range query returns
the link — the union over partitions is the set of all such links and no
link appears in two partitions.  (Amendment forced by the counterexample:
the last range is half-open like the others, so ID `2^128 − 1` itself
would be returned by no partition.) -/
theorem links_partition_exactly_once (total : Nat) (htotal : 1 ≤ total)
    (s : LinkGraph.InMemoryGraph) (cutoff : Nat) (l : LinkGraph.Link)
    (hl : l ∈ s.links) (hid : l.id < maxUUID)
    (hret : l.retrievedAt < cutoff) :
    (List.range total).countP (fun p =>
      decide (l ∈ LinkGraph.Links s (fromID p total) (toID p total) cutoff)) = 1 := by
  have hpt : ∀ p,
      (decide (l ∈ LinkGraph.Links s (fromID p total) (toID p total) cutoff)) =
      decide (fromID p total ≤ l.id ∧ l.id < toID p total) := by
    intro p
    rw [decide_eq_decide]
    simp [LinkGraph.Links, List.mem_filter, hl, hret]
  simp only [hpt]
  obtain ⟨k, hk, hklo, hkhi⟩ := partition_ranges_cover total l.id htotal hid
  refine countP_range_eq_one _ total k hk (decide_eq_true ⟨hklo, hkhi⟩) ?_
  intro j hj hBj
  obtain ⟨hjlo, hjhi⟩ := of_decide_eq_true hBj
  rcases Nat.lt_trichotomy j k with hlt | heq | hgt
  · exact absurd (partition_ranges_disjoint total l.id j k hlt hk hjlo hjhi hklo) not_false
  · exact heq
  · exact absurd (partition_ranges_disjoint total l.id k j hgt hj hklo hkhi hjlo) not_false

/-- Witness for C5 (amended): a store with one link (id 5) split into two
partitions; the link is returned by exactly one of them. -/
theorem links_partition_exactly_once_witness :
    (1 ≤ 2) ∧
      (({ id := 5, url := "x", retrievedAt := 0 } : LinkGraph.Link) ∈
        ({ links := [{ id := 5, url := "x", retrievedAt := 0 }], edges := [],
           nextId := 1 } : LinkGraph.InMemoryGraph).links) ∧
      (5 < maxUUID) ∧ (0 < 1) ∧
      (List.range 2).countP (fun p =>
        decide (({ id := 5, url := "x", retrievedAt := 0 } : LinkGraph.Link) ∈
          LinkGraph.Links
            { links := [{ id := 5, url := "x", retrievedAt := 0 }], edges := [],
              nextId := 1 }
            (fromID p 2) (toID p 2) 1)) = 1 :=
  ⟨by decide, by simp, by decide, by decide,
    links_partition_exactly_once 2 (by decide)
      { links := [{ id := 5, url := "x", retrievedAt := 0 }], edges := [],
        nextId := 1 }
      1 { id := 5, url := "x", retrievedAt := 0 } (by simp) (by decide) (by decide)⟩

end Partition

namespace Bsp

/-- Auxiliary: reading the queue just written. -/
theorem queueAt_setQueue_same {V E M : Type} (v : Vertex V E M) (idx : Nat)
    (q : List M) : queueAt (setQueue v idx q) idx = q := by
  by_cases h : idx % 2 = 0 <;> simp [queueAt, setQueue, h]

/-- Auxiliary: writing one parity leaves the other parity's queue alone. -/
theorem queueAt_setQueue_ne {V E M : Type} (v : Vertex V E M) (i j : Nat)
    (q : List M) (h : i % 2 ≠ j % 2) :
    queueAt (setQueue v i q) j = queueAt v j := by
  rcases Nat.mod_two_eq_zero_or_one i with hi | hi <;>
    rcases Nat.mod_two_eq_zero_or_one j with hj | hj
  · exact absurd (hi.trans hj.symm) h
  · simp [queueAt, setQueue, hi, hj]
  · simp [queueAt, setQueue, hi, hj]
  · exact absurd (hi.trans hj.symm) h

/-- Auxiliary: overwriting a queue twice keeps the last write. -/
theorem setQueue_setQueue {V E M : Type} (v : Vertex V E M) (idx : Nat)
    (a b : List M) : setQueue (setQueue v idx a) idx b = setQueue v idx b := by
  by_cases h : idx % 2 = 0 <;> simp [setQueue, h]

/-- Auxiliary: writing back the current contents is the identity. -/
theorem setQueue_queueAt_self {V E M : Type} (v : Vertex V E M) (idx : Nat) :
    setQueue v idx (queueAt v idx) = v := by
  by_cases h : idx % 2 = 0 <;> simp [setQueue, queueAt, h]

/-- Auxiliary: `queueAt` only depends on the index's parity. -/
theorem queueAt_congr {V E M : Type} (v : Vertex V E M) (i j : Nat)
    (h : i % 2 = j % 2) : queueAt v i = queueAt v j := by
  simp [queueAt, h]

theorem msgsTo_nil {M : Type} (j : String) :
    msgsTo ([] : List (String × M)) j = [] := rfl

theorem msgsTo_cons {M : Type} (dm : String × M) (L : List (String × M))
    (j : String) :
    msgsTo (dm :: L) j =
      if dm.1 == j then dm.2 :: msgsTo L j else msgsTo L j := by
  by_cases h : (dm.1 == j) = true <;> simp [msgsTo, List.filter_cons, h]

theorem msgsTo_append {M : Type} (L₁ L₂ : List (String × M)) (j : String) :
    msgsTo (L₁ ++ L₂) j = msgsTo L₁ j ++ msgsTo L₂ j := by
  simp [msgsTo, List.filter_append]

/-- Auxiliary: applying a list of sends touches only the written parity:
each vertex's queue at `idx` gains exactly the messages addressed to it,
in order. -/
theorem applySends_vertices {V E M : Type} (idx : Nat) :
    ∀ (L : List (String × M)) (st : Graph V E M) (j : String),
      (L.foldl (fun s dm => enqueueMsg s idx dm.1 dm.2) st).vertices j =
        (st.vertices j).map
          (fun v => setQueue v idx (queueAt v idx ++ msgsTo L j)) := by
  intro L
  induction L with
  | nil =>
    intro st j
    cases hv : st.vertices j <;> simp [hv, msgsTo_nil, setQueue_queueAt_self]
  | cons dm L ih =>
    intro st j
    rw [List.foldl_cons, ih]
    by_cases hj : j = dm.1
    · subst hj
      cases hv : st.vertices dm.1 <;>
        simp [enqueueMsg, hv, msgsTo_cons, queueAt_setQueue_same,
          setQueue_setQueue, List.append_assoc, List.singleton_append]
    · have hne : (dm.1 == j) = false := by
        simp [Ne.symm hj]
      cases hv : st.vertices j <;>
        simp [enqueueMsg, hv, Ne.symm hj, hj, msgsTo_cons, hne]

/-- Auxiliary: applying sends changes neither the superstep, the id list,
nor the relayer. -/
theorem applySends_misc {V E M : Type} (idx : Nat) :
    ∀ (L : List (String × M)) (st : Graph V E M),
      (L.foldl (fun s dm => enqueueMsg s idx dm.1 dm.2) st).superstep =
          st.superstep ∧
        (L.foldl (fun s dm => enqueueMsg s idx dm.1 dm.2) st).ids = st.ids := by
  intro L
  induction L with
  | nil => intro st; exact ⟨rfl, rfl⟩
  | cons dm L ih =>
    intro st
    rw [List.foldl_cons]
    exact ih (enqueueMsg st idx dm.1 dm.2)

/-- Auxiliary: effect of one iteration of the vertex loop of `Graph.step`:
the superstep and id list are preserved, absent vertices stay absent,
every present vertex's next-parity queue gains exactly this iteration's
sends addressed to it, the current-parity queue is either discarded or
left untouched, and the iterated vertex ends with an empty current-parity
queue (it is discarded after compute, and a skipped vertex had no pending
messages). -/
theorem stepBody_spec {V E M : Type} (compute : ComputeFunc V E M)
    (st : Graph V E M) (cnt : Nat) (log : List (String × M)) (id : String) :
    (stepBody compute (st, cnt, log) id).1.superstep = st.superstep ∧
    (stepBody compute (st, cnt, log) id).1.ids = st.ids ∧
    ∃ L, (stepBody compute (st, cnt, log) id).2.2 = log ++ L ∧
      (∀ j, st.vertices j = none →
        (stepBody compute (st, cnt, log) id).1.vertices j = none) ∧
      (∀ j v, st.vertices j = some v →
        ∃ v', (stepBody compute (st, cnt, log) id).1.vertices j = some v' ∧
          queueAt v' ((st.superstep + 1) % 2) =
            queueAt v ((st.superstep + 1) % 2) ++ msgsTo L j ∧
          (queueAt v' (st.superstep % 2) = [] ∨
            queueAt v' (st.superstep % 2) = queueAt v (st.superstep % 2)) ∧
          (j = id → queueAt v' (st.superstep % 2) = [])) := by
  cases hv : st.vertices id with
  | none =>
    have heq : stepBody compute (st, cnt, log) id = (st, cnt, log) := by
      simp only [stepBody, hv]
    rw [heq]
    refine ⟨rfl, rfl, [], by simp, fun j hj => hj, ?_⟩
    intro j v hjv
    refine ⟨v, hjv, by simp [msgsTo_nil], Or.inr rfl, ?_⟩
    intro hji
    rw [hji, hv] at hjv
    exact Option.noConfusion hjv
  | some v =>
    by_cases hact : (v.active || !(queueAt v (st.superstep % 2)).isEmpty) = true
    · -- the vertex is processed
      set r := compute st.superstep { v with active := true }
        (queueAt v (st.superstep % 2)) with hr
      set v' : Vertex V E M :=
        setQueue { v with value := r.1, active := r.2.1 } (st.superstep % 2) []
        with hv'
      set st' : Graph V E M :=
        { st with vertices := fun j => if j = id then some v' else st.vertices j }
        with hst'
      have heq : stepBody compute (st, cnt, log) id =
          (r.2.2.foldl
            (fun sg dm => enqueueMsg sg ((st.superstep + 1) % 2) dm.1 dm.2) st',
           cnt + 1, log ++ r.2.2) := by
        simp only [stepBody, hv]
        rw [if_pos hact]
      rw [heq]
      have hpar : (st.superstep % 2) % 2 ≠ ((st.superstep + 1) % 2) % 2 := by omega
      have hmisc := applySends_misc ((st.superstep + 1) % 2) r.2.2 st'
      refine ⟨?_, ?_, r.2.2, rfl, ?_, ?_⟩
      · rw [hmisc.1]
      · rw [hmisc.2]
      · intro j hj
        have hne : j ≠ id := by
          intro hji
          rw [hji, hv] at hj
          exact Option.noConfusion hj
        rw [applySends_vertices]
        have : st'.vertices j = none := by
          rw [hst']
          simp [hne, hj]
        rw [this]
        rfl
      · intro j v₀ hjv
        rw [applySends_vertices]
        by_cases hji : j = id
        · subst hji
          have hv₀ : v₀ = v := by
            rw [hv] at hjv
            exact (Option.some.injEq _ _ ▸ hjv).symm
          rw [hv₀]
          have hsv : st'.vertices j = some v' := by
            rw [hst']
            simp
          rw [hsv]
          refine ⟨setQueue v' ((st.superstep + 1) % 2)
            (queueAt v' ((st.superstep + 1) % 2) ++ msgsTo r.2.2 j), rfl, ?_, ?_, ?_⟩
          · rw [queueAt_setQueue_same]
            have h1 : queueAt v' ((st.superstep + 1) % 2) =
                queueAt v ((st.superstep + 1) % 2) := by
              rw [hv']
              rw [queueAt_setQueue_ne _ _ _ _ hpar]
              rfl
            rw [h1]
          · left
            rw [queueAt_setQueue_ne _ _ _ _ (fun h => hpar h.symm), hv',
              queueAt_setQueue_same]
          · intro _
            rw [queueAt_setQueue_ne _ _ _ _ (fun h => hpar h.symm), hv',
              queueAt_setQueue_same]
        · have hsv : st'.vertices j = some v₀ := by
            rw [hst']
            simp [hji, hjv]
          rw [hsv]
          refine ⟨setQueue v₀ ((st.superstep + 1) % 2)
            (queueAt v₀ ((st.superstep + 1) % 2) ++ msgsTo r.2.2 j), rfl, ?_, ?_, ?_⟩
          · rw [queueAt_setQueue_same]
          · right
            rw [queueAt_setQueue_ne _ _ _ _ (fun h => hpar h.symm)]
          · intro hji'
            exact absurd hji' hji
    · -- the vertex is skipped: it was inactive with no pending messages
      have hemp : queueAt v (st.superstep % 2) = [] := by
        rw [Bool.or_eq_true, not_or] at hact
        have h2 : (!(queueAt v (st.superstep % 2)).isEmpty) ≠ true := hact.2
        have h3 : (queueAt v (st.superstep % 2)).isEmpty = true := by
          cases hq : (queueAt v (st.superstep % 2)).isEmpty
          · rw [hq] at h2
            simp at h2
          · rfl
        exact List.isEmpty_iff.mp h3
      have heq : stepBody compute (st, cnt, log) id = (st, cnt, log) := by
        simp only [stepBody, hv]
        rw [if_neg hact]
      rw [heq]
      refine ⟨rfl, rfl, [], by simp, fun j hj => hj, ?_⟩
      intro j v₀ hjv
      refine ⟨v₀, hjv, by simp [msgsTo_nil], Or.inr rfl, ?_⟩
      intro hji
      rw [hji, hv] at hjv
      have hv₀ : v₀ = v := (Option.some.injEq _ _ ▸ hjv).symm
      rw [hv₀]
      exact hemp

/-- Auxiliary: the whole vertex loop of `Graph.step`, folded over any id
list: next-parity queues collect exactly the logged sends, and every
iterated vertex ends the step with an empty current-parity queue. -/
theorem stepFold_spec {V E M : Type} (compute : ComputeFunc V E M) :
    ∀ (todo : List String) (st : Graph V E M) (cnt : Nat)
      (log : List (String × M)),
      (todo.foldl (stepBody compute) (st, cnt, log)).1.superstep = st.superstep ∧
      (todo.foldl (stepBody compute) (st, cnt, log)).1.ids = st.ids ∧
      ∃ L, (todo.foldl (stepBody compute) (st, cnt, log)).2.2 = log ++ L ∧
        (∀ j, st.vertices j = none →
          (todo.foldl (stepBody compute) (st, cnt, log)).1.vertices j = none) ∧
        (∀ j v, st.vertices j = some v →
          ∃ v', (todo.foldl (stepBody compute) (st, cnt, log)).1.vertices j =
              some v' ∧
            queueAt v' ((st.superstep + 1) % 2) =
              queueAt v ((st.superstep + 1) % 2) ++ msgsTo L j ∧
            (queueAt v' (st.superstep % 2) = [] ∨
              queueAt v' (st.superstep % 2) = queueAt v (st.superstep % 2)) ∧
            (j ∈ todo → queueAt v' (st.superstep % 2) = [])) := by
  intro todo
  induction todo with
  | nil =>
    intro st cnt log
    refine ⟨rfl, rfl, [], by simp, fun j hj => hj, ?_⟩
    intro j v hjv
    exact ⟨v, hjv, by simp [msgsTo_nil], Or.inr rfl,
      fun hj => absurd hj (List.not_mem_nil _)⟩
  | cons id rest ih =>
    intro st cnt log
    rw [List.foldl_cons]
    obtain ⟨hbsup, hbids, L₁, hblog, hbnone, hbsome⟩ :=
      stepBody_spec compute st cnt log id
    rcases hstep : stepBody compute (st, cnt, log) id with ⟨st₁, cnt₁, log₁⟩
    rw [hstep] at hbsup hbids hblog hbnone hbsome
    obtain ⟨hfsup, hfids, L₂, hflog, hfnone, hfsome⟩ := ih st₁ cnt₁ log₁
    refine ⟨hfsup.trans hbsup, hfids.trans hbids, L₁ ++ L₂, ?_, ?_, ?_⟩
    · have hblog' : log₁ = log ++ L₁ := hblog
      rw [hflog, hblog', List.append_assoc]
    · intro j hj
      exact hfnone j (hbnone j hj)
    · intro j v hjv
      obtain ⟨v₁, hv₁, hq1, hd1, hid1⟩ := hbsome j v hjv
      obtain ⟨v₂, hv₂, hq2, hd2, hmem2⟩ := hfsome j v₁ hv₁
      rw [hbsup] at hq2 hd2
      refine ⟨v₂, hv₂, ?_, ?_, ?_⟩
      · rw [hq2, hq1, msgsTo_append, List.append_assoc]
      · rcases hd2 with h | h
        · exact Or.inl h
        · rw [h]
          exact hd1
      · intro hjmem
        rcases List.mem_cons.mp hjmem with hji | hjrest
        · have h1 : queueAt v₁ (st.superstep % 2) = [] := hid1 hji
          rcases hd2 with h | h
          · exact h
          · rw [h]
            exact h1
        · have h2 := hmem2 hjrest
          rw [hbsup] at h2
          exact h2

/-- Auxiliary: `Graph.step` specification: superstep and ids preserved,
absent vertices stay absent, each vertex's `(superstep+1) % 2` queue gains
exactly the messages sent to it during the step, and every vertex listed
in `ids` ends with an empty `superstep % 2` queue (consumed messages are
discarded; skipped vertices had none). -/
theorem runStep_spec {V E M : Type} (compute : ComputeFunc V E M)
    (g : Graph V E M) :
    (runStep compute g).1.superstep = g.superstep ∧
    (runStep compute g).1.ids = g.ids ∧
    (∀ j, g.vertices j = none → (runStep compute g).1.vertices j = none) ∧
    (∀ j v, g.vertices j = some v →
      ∃ v', (runStep compute g).1.vertices j = some v' ∧
        queueAt v' ((g.superstep + 1) % 2) =
          queueAt v ((g.superstep + 1) % 2) ++ sentTo compute g j ∧
        (queueAt v' (g.superstep % 2) = [] ∨
          queueAt v' (g.superstep % 2) = queueAt v (g.superstep % 2)) ∧
        (j ∈ g.ids → queueAt v' (g.superstep % 2) = [])) := by
  obtain ⟨h1, h2, L, hlog, hnone, hsome⟩ := stepFold_spec compute g.ids g 0 []
  have hrun : runStep compute g = g.ids.foldl (stepBody compute) (g, 0, []) := rfl
  have hLe : ∀ j, sentTo compute g j = msgsTo L j := by
    intro j
    rw [sentTo, hrun, hlog]
    rfl
  refine ⟨h1, h2, hnone, ?_⟩
  intro j v hjv
  obtain ⟨v', hv', hq, hd, hmem⟩ := hsome j v hjv
  exact ⟨v', hv', by rw [hq, hLe j], hd, hmem⟩

/-- Auxiliary: one executed superstep (step plus superstep increment),
under the invariant that next-parity queues start empty: what each vertex
observes at the new superstep is exactly what was sent to it during the
executed step, and the invariant re-establishes itself (as does the
key/ids coherence), so the argument can be iterated. -/
theorem step_observes {V E M : Type} (compute : ComputeFunc V E M)
    (g : Graph V E M)
    (hKeys : ∀ j, (g.vertices j).isSome → j ∈ g.ids)
    (hInv : ∀ j v, g.vertices j = some v →
      queueAt v ((g.superstep + 1) % 2) = []) :
    (stepNext compute g).superstep = g.superstep + 1 ∧
    (∀ j, ((stepNext compute g).vertices j).isSome ↔ (g.vertices j).isSome) ∧
    (∀ dst v, g.vertices dst = some v →
      msgsFor (stepNext compute g) dst = sentTo compute g dst) ∧
    (∀ j, ((stepNext compute g).vertices j).isSome → j ∈ (stepNext compute g).ids) ∧
    (∀ j v', (stepNext compute g).vertices j = some v' →
      queueAt v' (((stepNext compute g).superstep + 1) % 2) = []) := by
  obtain ⟨h1, h2, hnone, hsome⟩ := runStep_spec compute g
  have hverts : ∀ j, (stepNext compute g).vertices j =
      (runStep compute g).1.vertices j := fun _ => rfl
  have hids : (stepNext compute g).ids = g.ids := h2
  have hsup : (stepNext compute g).superstep = g.superstep + 1 := by
    show (runStep compute g).1.superstep + 1 = g.superstep + 1
    rw [h1]
  have hiff : ∀ j, ((stepNext compute g).vertices j).isSome ↔
      (g.vertices j).isSome := by
    intro j
    cases hjv : g.vertices j with
    | none => rw [hverts, hnone j hjv]
    | some v =>
      obtain ⟨v', hv', _⟩ := hsome j v hjv
      rw [hverts, hv']
      simp
  refine ⟨hsup, hiff, ?_, ?_, ?_⟩
  · intro dst v hdv
    obtain ⟨v', hv', hq, _, _⟩ := hsome dst v hdv
    have hm : msgsFor (stepNext compute g) dst =
        queueAt v' ((stepNext compute g).superstep % 2) := by
      rw [msgsFor, hverts, hv']
    rw [hm, hsup, hq, hInv dst v hdv, List.nil_append]
  · intro j hj
    rw [hids]
    exact hKeys j ((hiff j).mp hj)
  · intro j v' hv'
    have hjsome : (g.vertices j).isSome := (hiff j).mp (by rw [hv']; rfl)
    obtain ⟨v, hjv⟩ := Option.isSome_iff_exists.mp hjsome
    obtain ⟨v'', hv'', _, _, hmem⟩ := hsome j v hjv
    have hveq : v' = v'' := by
      rw [hverts] at hv'
      rw [hv'] at hv''
      exact (Option.some.injEq _ _ ▸ hv'')
    have hbuf : queueAt v'' (g.superstep % 2) = [] := hmem (hKeys j hjsome)
    rw [hsup, queueAt_congr v' _ (g.superstep % 2) (by omega), hveq]
    exact hbuf

/-- Claim C6, confirmed.  In a graph whose vertices are the map's keys and
whose next-parity queues start empty (as they do at the start of a run and
after every step, which the theorem re-establishes), a message sent to a
local vertex `dst` during the step at superstep `s` lands in `dst`'s
`(s+1) mod 2` queue: it is among the messages `dst`'s compute function
consumes at superstep `s+1`, and that consumed batch is exactly the step-`s`
sends; two supersteps later (the parity having cycled back) the batch
consumed at superstep `s+3` is exactly the step-`s+2` sends — the step-`s`
message was discarded after the successful compute call at `s+1` and is
not observed again. -/
theorem message_sent_observed_next_superstep_only {V E M : Type}
    (compute : ComputeFunc V E M) (g : Graph V E M)
    (hKeys : ∀ j, (g.vertices j).isSome → j ∈ g.ids)
    (hInv : ∀ j v, g.vertices j = some v →
      queueAt v ((g.superstep + 1) % 2) = [])
    (dst : String) (v : Vertex V E M) (hdst : g.vertices dst = some v)
    (m : M) (hm : m ∈ sentTo compute g dst) :
    m ∈ msgsFor (stepNext compute g) dst ∧
    msgsFor (stepNext compute g) dst = sentTo compute g dst ∧
    (stepNext compute g).superstep = g.superstep + 1 ∧
    msgsFor (stepNext compute (stepNext compute (stepNext compute g))) dst =
      sentTo compute (stepNext compute (stepNext compute g)) dst := by
  obtain ⟨hsup1, hiff1, hobs1, hkeys1, hinv1⟩ := step_observes compute g hKeys hInv
  have hdst1 : ((stepNext compute g).vertices dst).isSome :=
    (hiff1 dst).mpr (by rw [hdst]; rfl)
  obtain ⟨v1, hv1⟩ := Option.isSome_iff_exists.mp hdst1
  obtain ⟨hsup2, hiff2, hobs2, hkeys2, hinv2⟩ :=
    step_observes compute (stepNext compute g) hkeys1 hinv1
  have hdst2 : ((stepNext compute (stepNext compute g)).vertices dst).isSome :=
    (hiff2 dst).mpr hdst1
  obtain ⟨v2, hv2⟩ := Option.isSome_iff_exists.mp hdst2
  obtain ⟨hsup3, hiff3, hobs3, hkeys3, hinv3⟩ :=
    step_observes compute (stepNext compute (stepNext compute g)) hkeys2 hinv2
  have hobs := hobs1 dst v hdst
  exact ⟨hobs ▸ hm, hobs, hsup1, hobs3 dst v2 hv2⟩

/-- Auxiliary: closed form of `twoVertexGraph`'s vertex map. -/
theorem twoVertexGraph_vertices (j : String) :
    twoVertexGraph.vertices j =
      if j = "B" then some ⟨"B", 0, true, [], [], []⟩
      else if j = "A" then some ⟨"A", 0, true, [], [], []⟩ else none := rfl

/-- Witness for C6: in the two-vertex graph at superstep 0, the message
`7` sent from `A` to `B` during step 0 is observed by `B` exactly at
superstep 1 and the batch observed at superstep 3 is exactly the step-2
sends. -/
theorem message_sent_observed_next_superstep_only_witness :
    (∀ j, (twoVertexGraph.vertices j).isSome → j ∈ twoVertexGraph.ids) ∧
    (∀ j v, twoVertexGraph.vertices j = some v →
      queueAt v ((twoVertexGraph.superstep + 1) % 2) = []) ∧
    (twoVertexGraph.vertices "B" = some ⟨"B", 0, true, [], [], []⟩) ∧
    ((7 : Nat) ∈ sentTo sendSeven twoVertexGraph "B") ∧
    ((7 : Nat) ∈ msgsFor (stepNext sendSeven twoVertexGraph) "B" ∧
      msgsFor (stepNext sendSeven twoVertexGraph) "B" =
        sentTo sendSeven twoVertexGraph "B" ∧
      (stepNext sendSeven twoVertexGraph).superstep =
        twoVertexGraph.superstep + 1 ∧
      msgsFor (stepNext sendSeven
          (stepNext sendSeven (stepNext sendSeven twoVertexGraph))) "B" =
        sentTo sendSeven
          (stepNext sendSeven (stepNext sendSeven twoVertexGraph)) "B") := by
  have hK : ∀ j, (twoVertexGraph.vertices j).isSome → j ∈ twoVertexGraph.ids := by
    intro j h
    rw [twoVertexGraph_vertices] at h
    by_cases hb : j = "B"
    · subst hb; decide
    · by_cases ha : j = "A"
      · subst ha; decide
      · rw [if_neg hb, if_neg ha] at h
        simp at h
  have hI : ∀ j v, twoVertexGraph.vertices j = some v →
      queueAt v ((twoVertexGraph.superstep + 1) % 2) = [] := by
    intro j v h
    rw [twoVertexGraph_vertices] at h
    by_cases hb : j = "B"
    · rw [if_pos hb] at h
      injection h with h2
      subst h2
      decide
    · by_cases ha : j = "A"
      · rw [if_neg hb, if_pos ha] at h
        injection h with h2
        subst h2
        decide
      · rw [if_neg hb, if_neg ha] at h
        exact Option.noConfusion h
  have hd : twoVertexGraph.vertices "B" = some ⟨"B", 0, true, [], [], []⟩ := rfl
  have hm : (7 : Nat) ∈ sentTo sendSeven twoVertexGraph "B" := by decide
  exact ⟨hK, hI, hd, hm,
    message_sent_observed_next_superstep_only sendSeven twoVertexGraph hK hI
      "B" _ hd 7 hm⟩

end Bsp
